import Mathlib

/-!
Shallow embedding of the blocklist module of the song-skipping utility
(`src/blocklist.js`): the string normalizer, the three list sanitizers and
the rule-evaluation engine `isBlocked`, together with proofs of the
specification's claims about them.

Strings are modelled as Lean `String`s (lists of characters); the dynamic
(untyped) JavaScript values that the sanitizers can receive are modelled by
the inductive type `JSVal`, and code paths that can raise a `TypeError` are
modelled in the `Except Unit` monad.
-/

namespace SongSkip

/-- The JavaScript whitespace class (`\s`, also used by `String.prototype.trim`):
ASCII whitespace together with the Unicode space separators recognized by
ECMAScript. -/
def isWS (c : Char) : Bool :=
  let n := c.toNat
  n = 32 || n = 9 || n = 10 || n = 11 || n = 12 || n = 13 ||
  n = 0xa0 || n = 0x1680 || (0x2000 ≤ n && n ≤ 0x200a) ||
  n = 0x2028 || n = 0x2029 || n = 0x202f || n = 0x205f || n = 0x3000 || n = 0xfeff

/-- Per-character simple case folding on the ASCII range, as performed by
`String.prototype.toLowerCase` (the claims only exercise simple folding). -/
def toLowerChar (c : Char) : Char :=
  if 65 ≤ c.toNat ∧ c.toNat ≤ 90 then Char.ofNat (c.toNat + 32) else c

/-- `str.trim()`: drop leading and trailing whitespace. -/
def trimChars (l : List Char) : List Char :=
  ((l.dropWhile isWS).reverse.dropWhile isWS).reverse

/-- Worker for `collapseWS`; the flag records whether the scan is inside a
whitespace run whose single replacement space was already emitted. -/
def collapseAux : Bool → List Char → List Char
  | _, [] => []
  | inRun, c :: rest =>
    if isWS c then
      if inRun then collapseAux true rest
      else ' ' :: collapseAux true rest
    else c :: collapseAux false rest

/-- `str.replace(/\s+/g, ' ')`: replace every maximal run of whitespace
characters by a single space. -/
def collapseWS (l : List Char) : List Char := collapseAux false l

/-- `normalize` from blocklist.js on the character list of a string:
`str.trim().toLowerCase().replace(/\s+/g, ' ')`. -/
def normChars (l : List Char) : List Char :=
  (trimChars l).map toLowerChar |> collapseWS

/-- `normalize(str)` for a string argument (the `typeof str !== 'string'`
branch lives in `jsNormalize`). -/
def normalize (s : String) : String := ⟨normChars s.data⟩

/-- A JavaScript runtime value, as deep as the blocklist module inspects its
inputs. Numbers are modelled as integers: no claim depends on fractional or
NaN behaviour. -/
inductive JSVal where
  | str (s : String)
  | num (n : Int)
  | bool (b : Bool)
  | null
  | undefined
  | arr (elems : List JSVal)
  | obj (fields : List (String × JSVal))

/-- JavaScript truthiness of a value. -/
def jsTruthy : JSVal → Bool
  | .str s => s ≠ ""
  | .num n => n ≠ 0
  | .bool b => b
  | .null => false
  | .undefined => false
  | .arr _ => true
  | .obj _ => true

/-- `typeof v === 'object'` (true for objects, arrays and `null`). -/
def jsTypeofObject : JSVal → Bool
  | .obj _ => true
  | .arr _ => true
  | .null => true
  | _ => false

/-- Property access `v.field` on an object or array value (arrays have no
`track`/`artist` properties, so reads on them yield `undefined`). -/
def jsGet (v : JSVal) (field : String) : JSVal :=
  match v with
  | .obj fs => ((fs.find? (fun p => p.1 == field)).map (fun p => p.2)).getD .undefined
  | _ => .undefined

/-- The full `normalize` from blocklist.js: a non-string argument yields the
empty string, a string is trimmed, lowercased and whitespace-collapsed. -/
def jsNormalize : JSVal → String
  | .str s => normalize s
  | _ => ""

/-- Worker for `dedupFirst`: the accumulator is the set of values already
seen (and kept). -/
def dedupFirstAux (seen : List String) : List String → List String
  | [] => []
  | x :: xs =>
    if seen.contains x then dedupFirstAux seen xs
    else x :: dedupFirstAux (x :: seen) xs

/-- `[...new Set(xs)]`: deduplicate, keeping the first occurrence of each
value and preserving order. -/
def dedupFirst (l : List String) : List String := dedupFirstAux [] l

/-- `sanitizeBlockedList` from blocklist.js: map `normalize` over the
entries, drop the ones that normalize to empty, deduplicate; a non-array
argument yields the empty list. -/
def jsSanitizeBlockedList : JSVal → List String
  | .arr xs => dedupFirst ((xs.map jsNormalize).filter (fun s => s ≠ ""))
  | _ => []

/-- A sanitized blocked-track rule: a normalized track name and an optional
normalized artist name (`undefined` in the source is `none` here). -/
structure TrackRule where
  artist : Option String
  track : String
deriving DecidableEq, Repr

/-- `item.artist && item.artist.trim().length > 0 ? normalize(item.artist) :
undefined` from `sanitizeBlockedTracks`: a falsy artist yields `undefined`,
a truthy string artist is kept only when its trim is nonempty, and a truthy
non-string artist makes the member call `item.artist.trim` raise a
`TypeError`. -/
def jsArtistField (av : JSVal) : Except Unit (Option String) :=
  if jsTruthy av then
    match av with
    | .str s => if trimChars s.data ≠ [] then .ok (some (normalize s)) else .ok none
    | _ => .error ()
  else .ok none

/-- The deduplication key `` `${item.artist || ''}|||${item.track}` `` used by
`sanitizeBlockedTracks`. -/
def trackKey (r : TrackRule) : String := r.artist.getD "" ++ "|||" ++ r.track

/-- Deduplicate track rules by `trackKey`, keeping first occurrences (the
`seen` set of keys of the source). -/
def dedupTracksAux (seen : List String) : List TrackRule → List TrackRule
  | [] => []
  | x :: xs =>
    if seen.contains (trackKey x) then dedupTracksAux seen xs
    else x :: dedupTracksAux (trackKey x :: seen) xs

/-- Deduplicate track rules by `trackKey`, keeping first occurrences. -/
def dedupTracks (l : List TrackRule) : List TrackRule := dedupTracksAux [] l

/-- `sanitizeBlockedTracks` from blocklist.js: keep the truthy object entries
with a truthy `track` property, normalize the `track` field and the optional
`artist` field (which can raise, see `jsArtistField`), drop entries whose
normalized track is empty, and deduplicate by the `artist|||track` key. A
non-array argument yields the empty list. -/
def jsSanitizeBlockedTracks (v : JSVal) : Except Unit (List TrackRule) :=
  match v with
  | .arr xs => do
    let kept := xs.filter fun item =>
      jsTruthy item && jsTypeofObject item && jsTruthy (jsGet item "track")
    let mapped ← kept.mapM fun item => do
      let track := jsNormalize (jsGet item "track")
      let artist ← jsArtistField (jsGet item "artist")
      pure (⟨artist, track⟩ : TrackRule)
    pure (dedupTracks (mapped.filter (fun r => r.track ≠ "")))
  | _ => .ok []

/-- `sanitizeBlockedPatterns` from blocklist.js: trim each string entry (a
non-string entry becomes empty), drop blanks, deduplicate by exact value. -/
def jsSanitizeBlockedPatterns : JSVal → List String
  | .arr xs =>
    dedupFirst ((xs.map fun p =>
      match p with
      | .str s => (⟨trimChars s.data⟩ : String)
      | _ => "").filter (fun s => s ≠ ""))
  | _ => []

/-- `isBlockedArtist` from blocklist.js: case-insensitive trimmed exact
membership; a falsy (empty) artist name never matches. -/
def isBlockedArtist (artistName : String) (blockedArtists : List String) : Bool :=
  if artistName = "" then false
  else (blockedArtists.map normalize).contains (normalize artistName)

/-- `isAnyArtistBlocked` from blocklist.js: any-of over the artist list. -/
def isAnyArtistBlocked (artistNames blockedArtists : List String) : Bool :=
  artistNames.any fun artist => isBlockedArtist artist blockedArtists

/-- `isBlockedTrack` from blocklist.js: a rule matches when its stored track
equals the observed normalized track and its artist is either absent or
equal to the observed normalized artist (a falsy observed artist never
satisfies an artist-specific rule). -/
def isBlockedTrack (artistName trackName : String) (blockedTracks : List TrackRule) : Bool :=
  if trackName = "" then false
  else
    let normalizedArtist : Option String :=
      if artistName = "" then none else some (normalize artistName)
    let normalizedTrack := normalize trackName
    blockedTracks.any fun blocked =>
      if blocked.track ≠ normalizedTrack then false
      else
        match blocked.artist with
        | none => true
        | some a => normalizedArtist == some a

/-- `sub <:+: hay` as a Boolean: JavaScript `hay.includes(sub)`. -/
def isSubOf (sub hay : List Char) : Bool := decide (sub <:+: hay)

/-- `matchPattern` from blocklist.js: glob-like matching of a pattern with
optional leading/trailing `*` against a track name; both sides are
normalized first and all `*` are stripped from the pattern core. -/
def matchPattern (pattern text : String) : Bool :=
  if pattern = "" || text = "" then false
  else
    let np := normalize pattern
    let nt := normalize text
    let clean := np.data.filter (fun c => c ≠ '*')
    if clean.length = 0 then false
    else if ['*'].isPrefixOf np.data && ['*'].isSuffixOf np.data then
      isSubOf clean nt.data
    else if ['*'].isPrefixOf np.data then
      clean.isSuffixOf nt.data
    else if ['*'].isSuffixOf np.data then
      clean.isPrefixOf nt.data
    else
      nt = np

/-- `isCollaborationBlocked` from blocklist.js: some observed artist's
normalized form contains some normalized blocked entry as a substring. -/
def isCollaborationBlocked (artistNames blockedArtists : List String) : Bool :=
  (artistNames.any fun artistName =>
    (blockedArtists.map normalize).any fun blocked =>
      isSubOf blocked.data (normalize artistName).data)

/-- The engine's reason code (`null` in the source is `Option.none` here). -/
inductive Reason where
  | artist
  | track
  | pattern
  | reverse
deriving DecidableEq, Repr

/-- The verdict returned by `isBlocked`. -/
structure Verdict where
  blocked : Bool
  reason : Option Reason
deriving DecidableEq, Repr

/-- `isBlocked` from blocklist.js, for an artist list, a track name, the
sanitized rule lists and the two mode flags. The stages appear in source
order: reverse-mode gate, per-artist track rules, the direct absent-artist
track check, pattern rules, artist rules, collaboration check. -/
def isBlocked (artistNames : List String) (trackName : String)
    (blockedArtists : List String) (blockedTracks : List TrackRule)
    (blockedPatterns : List String) (reverseMode blockCollaborations : Bool) : Verdict :=
  if reverseMode && !(isAnyArtistBlocked artistNames blockedArtists) then
    ⟨true, some .reverse⟩
  else if artistNames.any (fun a => isBlockedTrack a trackName blockedTracks) then
    ⟨true, some .track⟩
  else if blockedTracks.any (fun b => b.track == normalize trackName && b.artist == none) then
    ⟨true, some .track⟩
  else if blockedPatterns.any (fun p => matchPattern p trackName) then
    ⟨true, some .pattern⟩
  else if isAnyArtistBlocked artistNames blockedArtists then
    ⟨true, some .artist⟩
  else if blockCollaborations && !reverseMode && isCollaborationBlocked artistNames blockedArtists then
    ⟨true, some .artist⟩
  else ⟨false, none⟩

/-- Firing condition of the reverse-mode gate of `isBlocked`. -/
def revGateFires (artistNames blockedArtists : List String) (reverseMode : Bool) : Bool :=
  reverseMode && !(isAnyArtistBlocked artistNames blockedArtists)

/-- Firing condition of the track-rule stage of `isBlocked` (the per-artist
loop together with the direct absent-artist check). -/
def trackStageFires (artistNames : List String) (trackName : String)
    (blockedTracks : List TrackRule) : Bool :=
  artistNames.any (fun a => isBlockedTrack a trackName blockedTracks) ||
  blockedTracks.any (fun b => b.track == normalize trackName && b.artist == none)

/-- Firing condition of the pattern stage of `isBlocked`. -/
def patternStageFires (trackName : String) (blockedPatterns : List String) : Bool :=
  blockedPatterns.any fun p => matchPattern p trackName

/-- Firing condition of the artist stage of `isBlocked`. -/
def artistStageFires (artistNames blockedArtists : List String) : Bool :=
  isAnyArtistBlocked artistNames blockedArtists

/-- Firing condition of the collaboration stage of `isBlocked`. -/
def collabStageFires (artistNames blockedArtists : List String)
    (reverseMode blockCollaborations : Bool) : Bool :=
  blockCollaborations && !reverseMode && isCollaborationBlocked artistNames blockedArtists

/-- First-match-wins reference evaluation over the five independently stated
stage conditions, in the priority order the specification describes. -/
def priorityEval (artistNames : List String) (trackName : String)
    (blockedArtists : List String) (blockedTracks : List TrackRule)
    (blockedPatterns : List String) (reverseMode blockCollaborations : Bool) : Verdict :=
  if revGateFires artistNames blockedArtists reverseMode then ⟨true, some .reverse⟩
  else if trackStageFires artistNames trackName blockedTracks then ⟨true, some .track⟩
  else if patternStageFires trackName blockedPatterns then ⟨true, some .pattern⟩
  else if artistStageFires artistNames blockedArtists then ⟨true, some .artist⟩
  else if collabStageFires artistNames blockedArtists reverseMode blockCollaborations then
    ⟨true, some .artist⟩
  else ⟨false, none⟩

/-- A track-rule list as produced by `sanitizeBlockedTracks`: nonempty
normalized track, and the artist, when present, nonempty and normalized. -/
def SanitizedTracks (rules : List TrackRule) : Prop :=
  ∀ r ∈ rules, r.track ≠ "" ∧ normalize r.track = r.track ∧
    ∀ a, r.artist = some a → a ≠ "" ∧ normalize a = a

/-- Whether a character list starts with a whitespace character. -/
def headIsWS : List Char → Bool
  | [] => false
  | c :: _ => isWS c

/-- A character list is in collapsed form: every whitespace character in it
is a single space followed by a non-whitespace character (or the end). -/
def collapsedOK : List Char → Bool
  | [] => true
  | c :: rest => (!(isWS c) || ((c == ' ') && !(headIsWS rest))) && collapsedOK rest

/-! ### Character-level lemmas -/

theorem charOfNat_toNat {n : Nat} (h1 : 97 ≤ n) (h2 : n ≤ 122) : (Char.ofNat n).toNat = n := by
  unfold Char.ofNat
  rw [dif_pos]
  · rfl
  · left
    omega

theorem toLowerChar_toNat_of_upper {c : Char} (h : 65 ≤ c.toNat ∧ c.toNat ≤ 90) :
    (toLowerChar c).toNat = c.toNat + 32 := by
  unfold toLowerChar
  rw [if_pos h]
  exact charOfNat_toNat (by omega) (by omega)

theorem isWS_iff_toNat {c : Char} :
    isWS c = true ↔
      (c.toNat = 32 ∨ c.toNat = 9 ∨ c.toNat = 10 ∨ c.toNat = 11 ∨ c.toNat = 12 ∨
       c.toNat = 13 ∨ c.toNat = 0xa0 ∨ c.toNat = 0x1680 ∨
       (0x2000 ≤ c.toNat ∧ c.toNat ≤ 0x200a) ∨ c.toNat = 0x2028 ∨ c.toNat = 0x2029 ∨
       c.toNat = 0x202f ∨ c.toNat = 0x205f ∨ c.toNat = 0x3000 ∨ c.toNat = 0xfeff) := by
  simp only [isWS, Bool.or_eq_true, Bool.and_eq_true, decide_eq_true_iff]
  tauto

theorem toLowerChar_idem (c : Char) : toLowerChar (toLowerChar c) = toLowerChar c := by
  by_cases h : 65 ≤ c.toNat ∧ c.toNat ≤ 90
  · have hn := toLowerChar_toNat_of_upper h
    unfold toLowerChar
    rw [if_pos h, if_neg]
    rw [show (Char.ofNat (c.toNat + 32)).toNat = (toLowerChar c).toNat from by
      unfold toLowerChar; rw [if_pos h], hn]
    omega
  · unfold toLowerChar
    rw [if_neg h, if_neg h]

theorem isWS_toLowerChar (c : Char) : isWS (toLowerChar c) = isWS c := by
  by_cases h : 65 ≤ c.toNat ∧ c.toNat ≤ 90
  · have hn := toLowerChar_toNat_of_upper h
    have h1 : isWS (toLowerChar c) = false := by
      rw [← Bool.not_eq_true, isWS_iff_toNat, hn]
      omega
    have h2 : isWS c = false := by
      rw [← Bool.not_eq_true, isWS_iff_toNat]
      omega
    rw [h1, h2]
  · unfold toLowerChar
    rw [if_neg h]

theorem toLowerChar_space : toLowerChar ' ' = ' ' := by decide

theorem isWS_space : isWS ' ' = true := by decide

/-! ### Lemmas about `collapseWS`, `trimChars` and `normChars` -/

theorem dropWhile_eq_self_of_head {p : Char → Bool} {l : List Char}
    (h : ∀ c, l.head? = some c → p c = false) : l.dropWhile p = l := by
  cases l with
  | nil => rfl
  | cons c rest =>
    rw [List.dropWhile_cons, if_neg]
    simp [h c rfl]

theorem head_dropWhile_false {p : Char → Bool} {l : List Char} {c : Char}
    (h : (l.dropWhile p).head? = some c) : p c = false := by
  have := List.head?_dropWhile_not p l
  rw [h] at this
  exact this

theorem getLast?_of_suffix {l₁ l₂ : List Char} (h : l₁ <:+ l₂) (hne : l₁ ≠ []) :
    l₁.getLast? = l₂.getLast? := by
  obtain ⟨pre, rfl⟩ := h
  rw [List.getLast?_append]
  cases hl : l₁.getLast? with
  | none => exact absurd (List.getLast?_eq_none_iff.mp hl) hne
  | some d => rfl

theorem collapseAux_cons_ws_true {c : Char} {rest : List Char} (h : isWS c = true) :
    collapseAux true (c :: rest) = collapseAux true rest := by
  simp [collapseAux, h]

theorem collapseAux_cons_ws_false {c : Char} {rest : List Char} (h : isWS c = true) :
    collapseAux false (c :: rest) = ' ' :: collapseAux true rest := by
  simp [collapseAux, h]

theorem collapseAux_cons_not_ws {b : Bool} {c : Char} {rest : List Char} (h : isWS c = false) :
    collapseAux b (c :: rest) = c :: collapseAux false rest := by
  cases b <;> simp [collapseAux, h]

theorem collapseAux_true_eq_nil_iff {l : List Char} :
    collapseAux true l = [] ↔ ∀ x ∈ l, isWS x = true := by
  induction l with
  | nil => simp [collapseAux]
  | cons c rest ih =>
    by_cases h : isWS c = true
    · rw [collapseAux_cons_ws_true h]
      simp [ih, h]
    · have h' : isWS c = false := by simpa using h
      rw [collapseAux_cons_not_ws h']
      simp only [List.cons_ne_nil, false_iff]
      intro hall
      exact h (hall c (by simp))

theorem collapseWS_eq_nil_iff {l : List Char} : collapseWS l = [] ↔ l = [] := by
  cases l with
  | nil => simp [collapseWS, collapseAux]
  | cons c rest =>
    simp only [List.cons_ne_nil, iff_false]
    unfold collapseWS
    by_cases h : isWS c = true
    · rw [collapseAux_cons_ws_false h]
      simp
    · rw [collapseAux_cons_not_ws (by simpa using h)]
      simp

theorem collapseWS_head_of_not_ws {l : List Char} {c : Char}
    (hh : l.head? = some c) (hw : isWS c = false) : (collapseWS l).head? = some c := by
  cases l with
  | nil => simp at hh
  | cons d rest =>
    rw [List.head?_cons, Option.some.injEq] at hh
    subst hh
    unfold collapseWS
    rw [collapseAux_cons_not_ws hw]
    rfl

theorem headIsWS_collapseAux_true (l : List Char) : headIsWS (collapseAux true l) = false := by
  induction l with
  | nil => rfl
  | cons c rest ih =>
    by_cases h : isWS c = true
    · rw [collapseAux_cons_ws_true h]
      exact ih
    · have h' : isWS c = false := by simpa using h
      rw [collapseAux_cons_not_ws h']
      simp [headIsWS, h']

theorem collapsedOK_collapseAux (l : List Char) :
    collapsedOK (collapseAux true l) = true ∧ collapsedOK (collapseAux false l) = true := by
  induction l with
  | nil => exact ⟨rfl, rfl⟩
  | cons c rest ih =>
    by_cases h : isWS c = true
    · constructor
      · rw [collapseAux_cons_ws_true h]
        exact ih.1
      · rw [collapseAux_cons_ws_false h]
        rw [collapsedOK]
        simp [isWS_space, headIsWS_collapseAux_true, ih.1]
    · have h' : isWS c = false := by simpa using h
      have key : collapsedOK (c :: collapseAux false rest) = true := by
        rw [collapsedOK]
        simp [h', ih.2]
      constructor
      · rw [collapseAux_cons_not_ws h']
        exact key
      · rw [collapseAux_cons_not_ws h']
        exact key

theorem collapseAux_of_collapsedOK {l : List Char} (h : collapsedOK l = true) :
    collapseAux false l = l ∧ (headIsWS l = false → collapseAux true l = l) := by
  induction l with
  | nil => exact ⟨rfl, fun _ => rfl⟩
  | cons c rest ih =>
    rw [collapsedOK, Bool.and_eq_true] at h
    obtain ⟨h1, h2⟩ := h
    by_cases hws : isWS c = true
    · rw [Bool.or_eq_true] at h1
      rcases h1 with h1 | h1
      · rw [hws] at h1
        simp at h1
      · rw [Bool.and_eq_true] at h1
        obtain ⟨hsp, hhd⟩ := h1
        have hc : c = ' ' := by simpa using hsp
        have hhd' : headIsWS rest = false := by simpa using hhd
        have hrest : collapseAux true rest = rest := ((ih h2).2) hhd'
        constructor
        · rw [collapseAux_cons_ws_false hws, hrest, hc]
        · intro hfalse
          rw [headIsWS, hws] at hfalse
          simp at hfalse
    · have h' : isWS c = false := by simpa using hws
      have hrest : collapseAux false rest = rest := (ih h2).1
      constructor
      · rw [collapseAux_cons_not_ws h', hrest]
      · intro _
        rw [collapseAux_cons_not_ws h', hrest]

theorem cons_getLast?_of_ne_nil {c : Char} {rest : List Char} (h : rest ≠ []) :
    (c :: rest).getLast? = rest.getLast? := by
  rw [show c :: rest = [c] ++ rest from rfl, List.getLast?_append]
  cases hl : rest.getLast? with
  | none => exact absurd (List.getLast?_eq_none_iff.mp hl) h
  | some d => rfl

theorem collapseAux_getLast_ws :
    ∀ {l : List Char} {b : Bool} {c : Char}, (collapseAux b l).getLast? = some c →
      isWS c = true → ∃ d, l.getLast? = some d ∧ isWS d = true := by
  intro l
  induction l with
  | nil =>
    intro b c h _
    simp [collapseAux] at h
  | cons e rest ih =>
    intro b c h hw
    by_cases hws : isWS e = true
    · cases b with
      | true =>
        rw [collapseAux_cons_ws_true hws] at h
        obtain ⟨d, hd, hwd⟩ := ih h hw
        have hrne : rest ≠ [] := by
          intro hn
          rw [hn] at hd
          simp at hd
        exact ⟨d, by rw [cons_getLast?_of_ne_nil hrne, hd], hwd⟩
      | false =>
        rw [collapseAux_cons_ws_false hws] at h
        cases hX : collapseAux true rest with
        | nil =>
          have hall : ∀ x ∈ rest, isWS x = true := collapseAux_true_eq_nil_iff.mp hX
          cases hr : rest with
          | nil => exact ⟨e, by simp, hws⟩
          | cons r rs =>
            subst hr
            obtain ⟨d, hd⟩ : ∃ d, (r :: rs).getLast? = some d :=
              ⟨(r :: rs).getLast (by simp), List.getLast?_eq_getLast _ _⟩
            refine ⟨d, ?_, hall d (List.mem_of_mem_getLast? hd)⟩
            rw [cons_getLast?_of_ne_nil (by simp), hd]
        | cons y ys =>
          rw [hX] at h
          rw [cons_getLast?_of_ne_nil (by simp)] at h
          obtain ⟨d, hd, hwd⟩ := ih (by rw [hX]; exact h) hw
          have hrne : rest ≠ [] := by
            intro hn
            rw [hn] at hd
            simp at hd
          exact ⟨d, by rw [cons_getLast?_of_ne_nil hrne, hd], hwd⟩
    · have h' : isWS e = false := by simpa using hws
      rw [collapseAux_cons_not_ws h'] at h
      cases hZ : collapseAux false rest with
      | nil =>
        rw [hZ] at h
        simp only [List.getLast?_singleton, Option.some.injEq] at h
        subst h
        rw [hw] at h'
        simp at h'
      | cons z zs =>
        rw [hZ] at h
        rw [cons_getLast?_of_ne_nil (by simp)] at h
        obtain ⟨d, hd, hwd⟩ := ih (by rw [hZ]; exact h) hw
        have hrne : rest ≠ [] := by
          intro hn
          rw [hn] at hd
          simp at hd
        exact ⟨d, by rw [cons_getLast?_of_ne_nil hrne, hd], hwd⟩

theorem trimChars_head_not_ws {l : List Char} {c : Char}
    (h : (trimChars l).head? = some c) : isWS c = false := by
  unfold trimChars at h
  rw [List.head?_reverse] at h
  have hzne : (l.dropWhile isWS).reverse.dropWhile isWS ≠ [] := by
    intro hn
    rw [hn] at h
    simp at h
  rw [getLast?_of_suffix (List.dropWhile_suffix isWS) hzne, List.getLast?_reverse] at h
  exact head_dropWhile_false h

theorem trimChars_getLast_not_ws {l : List Char} {c : Char}
    (h : (trimChars l).getLast? = some c) : isWS c = false := by
  unfold trimChars at h
  rw [List.getLast?_reverse] at h
  exact head_dropWhile_false h

theorem trimChars_eq_self {l : List Char}
    (hh : ∀ c, l.head? = some c → isWS c = false)
    (hl : ∀ c, l.getLast? = some c → isWS c = false) : trimChars l = l := by
  unfold trimChars
  rw [dropWhile_eq_self_of_head hh]
  have : l.reverse.dropWhile isWS = l.reverse := by
    refine dropWhile_eq_self_of_head ?_
    intro c hc
    rw [List.head?_reverse] at hc
    exact hl c hc
  rw [this, List.reverse_reverse]

theorem map_toLowerChar_collapseAux (l : List Char) :
    ∀ b, (collapseAux b l).map toLowerChar = collapseAux b (l.map toLowerChar) := by
  induction l with
  | nil =>
    intro b
    rfl
  | cons c rest ih =>
    intro b
    by_cases h : isWS c = true
    · have h2 : isWS (toLowerChar c) = true := by rw [isWS_toLowerChar]; exact h
      cases b with
      | true =>
        rw [collapseAux_cons_ws_true h, List.map_cons, collapseAux_cons_ws_true h2, ih]
      | false =>
        rw [collapseAux_cons_ws_false h, List.map_cons, List.map_cons,
          collapseAux_cons_ws_false h2, toLowerChar_space, ih]
    · have h' : isWS c = false := by simpa using h
      have h2 : isWS (toLowerChar c) = false := by rw [isWS_toLowerChar]; exact h'
      rw [collapseAux_cons_not_ws h', List.map_cons, List.map_cons,
        collapseAux_cons_not_ws h2, ih]

theorem map_toLowerChar_normChars (l : List Char) :
    (normChars l).map toLowerChar = normChars l := by
  show ((trimChars l).map toLowerChar |> collapseWS).map toLowerChar = normChars l
  unfold collapseWS
  rw [map_toLowerChar_collapseAux, List.map_map]
  rw [show (trimChars l).map (toLowerChar ∘ toLowerChar) = (trimChars l).map toLowerChar from
    List.map_congr_left fun a _ => toLowerChar_idem a]
  rfl

theorem normChars_head_not_ws {l : List Char} {c : Char}
    (h : (normChars l).head? = some c) : isWS c = false := by
  cases hM : (trimChars l).map toLowerChar with
  | nil =>
    have : normChars l = [] := by
      show collapseWS ((trimChars l).map toLowerChar) = []
      rw [hM]
      rfl
    rw [this] at h
    simp at h
  | cons d rest =>
    cases ht : trimChars l with
    | nil =>
      rw [ht] at hM
      simp at hM
    | cons e rest' =>
      rw [ht, List.map_cons] at hM
      have he : isWS e = false := trimChars_head_not_ws (by rw [ht]; rfl)
      have hd : isWS d = false := by
        have : d = toLowerChar e := by
          rw [List.cons.injEq] at hM
          exact hM.1.symm
        rw [this, isWS_toLowerChar]
        exact he
      have : (normChars l).head? = some d := by
        show (collapseWS ((trimChars l).map toLowerChar)).head? = some d
        refine collapseWS_head_of_not_ws ?_ hd
        rw [ht, List.map_cons, hM]
        rfl
      rw [this, Option.some.injEq] at h
      rw [← h]
      exact hd

theorem normChars_getLast_not_ws {l : List Char} {c : Char}
    (h : (normChars l).getLast? = some c) : isWS c = false := by
  cases hws : isWS c with
  | false => rfl
  | true =>
    obtain ⟨d, hd, hwd⟩ := collapseAux_getLast_ws (b := false) h hws
    rw [List.getLast?_map] at hd
    cases hgl : (trimChars l).getLast? with
    | none =>
      rw [hgl] at hd
      exact absurd hd (by simp)
    | some e =>
      rw [hgl] at hd
      rw [show Option.map toLowerChar (some e) = some (toLowerChar e) from rfl,
        Option.some.injEq] at hd
      have he : isWS e = false := trimChars_getLast_not_ws hgl
      rw [← hd, isWS_toLowerChar] at hwd
      rw [he] at hwd
      simp at hwd

theorem collapsedOK_normChars (l : List Char) : collapsedOK (normChars l) = true :=
  (collapsedOK_collapseAux ((trimChars l).map toLowerChar)).2

theorem normChars_idem (l : List Char) : normChars (normChars l) = normChars l := by
  have htrim : trimChars (normChars l) = normChars l :=
    trimChars_eq_self (fun c hc => normChars_head_not_ws hc)
      (fun c hc => normChars_getLast_not_ws hc)
  have hmap : (normChars l).map toLowerChar = normChars l := map_toLowerChar_normChars l
  have hcol : collapseAux false (normChars l) = normChars l :=
    (collapseAux_of_collapsedOK (collapsedOK_normChars l)).1
  calc normChars (normChars l)
      = collapseAux false ((trimChars (normChars l)).map toLowerChar) := rfl
    _ = collapseAux false ((normChars l).map toLowerChar) := by rw [htrim]
    _ = collapseAux false (normChars l) := by rw [hmap]
    _ = normChars l := hcol

theorem normalize_idem (s : String) : normalize (normalize s) = normalize s :=
  String.ext (normChars_idem s.data)

theorem str_eq_empty_iff {s : String} : s = "" ↔ s.data = [] := by
  rw [String.ext_iff]

theorem mem_dedupFirstAux {s : String} :
    ∀ {l seen : List String}, s ∈ dedupFirstAux seen l ↔ s ∈ l ∧ s ∉ seen := by
  intro l
  induction l with
  | nil =>
    intro seen
    simp [dedupFirstAux]
  | cons x xs ih =>
    intro seen
    by_cases hx : seen.contains x = true
    · rw [dedupFirstAux, if_pos hx, ih]
      have hxs : x ∈ seen := by simpa using hx
      simp only [List.mem_cons]
      constructor
      · rintro ⟨h1, h2⟩
        exact ⟨Or.inr h1, h2⟩
      · rintro ⟨h1 | h1, h2⟩
        · subst h1
          exact absurd hxs h2
        · exact ⟨h1, h2⟩
    · rw [dedupFirstAux, if_neg hx]
      have hxs : x ∉ seen := by simpa using hx
      simp only [List.mem_cons, ih, List.mem_cons]
      constructor
      · rintro (rfl | ⟨h1, h2⟩)
        · exact ⟨Or.inl rfl, hxs⟩
        · exact ⟨Or.inr h1, fun hs => h2 (Or.inr hs)⟩
      · rintro ⟨h1 | h1, h2⟩
        · exact Or.inl h1
        · by_cases hsx : s = x
          · exact Or.inl hsx
          · exact Or.inr ⟨h1, fun hs => hs.elim hsx h2⟩

theorem nodup_dedupFirstAux : ∀ (l seen : List String), (dedupFirstAux seen l).Nodup := by
  intro l
  induction l with
  | nil =>
    intro seen
    simp [dedupFirstAux]
  | cons x xs ih =>
    intro seen
    by_cases hx : seen.contains x = true
    · rw [dedupFirstAux, if_pos hx]
      exact ih _
    · rw [dedupFirstAux, if_neg hx]
      refine List.nodup_cons.mpr ⟨?_, ih _⟩
      intro hmem
      exact (mem_dedupFirstAux.mp hmem).2 (by simp)

theorem any_of_perm {l₁ l₂ : List String} (h : l₁.Perm l₂) (f : String → Bool) :
    l₁.any f = l₂.any f := by
  cases ha : l₁.any f with
  | true =>
    obtain ⟨x, hx, hfx⟩ := List.any_eq_true.mp ha
    exact (List.any_eq_true.mpr ⟨x, h.mem_iff.mp hx, hfx⟩).symm
  | false =>
    cases hb : l₂.any f with
    | false => rfl
    | true =>
      obtain ⟨x, hx, hfx⟩ := List.any_eq_true.mp hb
      have h1 : l₁.any f = true := List.any_eq_true.mpr ⟨x, h.mem_iff.mpr hx, hfx⟩
      rw [ha] at h1
      exact h1

theorem isBlocked_eq_priorityEval (arts : List String) (track : String) (bA : List String)
    (tR : List TrackRule) (pats : List String) (rev collab : Bool) :
    isBlocked arts track bA tR pats rev collab =
      priorityEval arts track bA tR pats rev collab := by
  unfold isBlocked priorityEval revGateFires trackStageFires patternStageFires
    artistStageFires collabStageFires
  cases h1 : arts.any (fun a => isBlockedTrack a track tR) <;>
  cases h2 : tR.any (fun b => b.track == normalize track && b.artist == none) <;>
  simp [h1, h2]

/-! ### Claim theorems -/

/-- C7: `normalize` is total and idempotent: every string satisfies
`normalize (normalize s) = normalize s` (this covers the empty and
whitespace-only strings, which normalize to the empty string), every
non-string value is sent to the empty string by the dynamic entry point
`jsNormalize`, and renormalizing any `jsNormalize` result is the identity. -/
theorem normalize_total_idem :
    (∀ s : String, normalize (normalize s) = normalize s)
    ∧ normalize "" = ""
    ∧ (∀ n : Int, jsNormalize (.num n) = "")
    ∧ (∀ b : Bool, jsNormalize (.bool b) = "")
    ∧ jsNormalize .null = ""
    ∧ jsNormalize .undefined = ""
    ∧ (∀ xs, jsNormalize (.arr xs) = "")
    ∧ (∀ fs, jsNormalize (.obj fs) = "")
    ∧ (∀ v : JSVal, normalize (jsNormalize v) = jsNormalize v) := by
  refine ⟨normalize_idem, rfl, fun _ => rfl, fun _ => rfl, rfl, rfl, fun _ => rfl,
    fun _ => rfl, ?_⟩
  intro v
  cases v with
  | str s => exact normalize_idem s
  | num n => rfl
  | bool b => rfl
  | null => rfl
  | undefined => rfl
  | arr xs => rfl
  | obj fs => rfl

/-- C1 (evaluation at the failing input): in reverse mode with allow-list
`["Artist A"]`, observing the non-allowed `["Artist B"]` does yield the
`reverse` verdict, but observing the allowed `["Artist A"]` with empty
track/pattern rule lists does NOT fall through to a non-blocked verdict:
the artist-level stage fires on the allowed artist and the code returns
`{blocked: true, reason: artist}`. -/
theorem reverse_mode_allowed_artist_eval :
    isBlocked ["Artist B"] "Song" ["Artist A"] [] [] true false =
      ⟨true, some .reverse⟩
    ∧ isBlocked ["Artist A"] "Song" ["Artist A"] [] [] true false =
      ⟨true, some .artist⟩ :=
  ⟨rfl, rfl⟩

/-- C6 (evaluation at the failing input): `sanitizeBlockedTracks` is not
total: an entry whose `track` is a valid string but whose `artist` is a
truthy non-string (here the number 1) raises a `TypeError` from
`item.artist.trim()` instead of being dropped. -/
theorem sanitizeBlockedTracks_nonstring_artist_throws :
    jsSanitizeBlockedTracks
        (.arr [.obj [("track", .str "x"), ("artist", .num 1)]]) = .error () :=
  rfl

/-- C9: every verdict `isBlocked` returns is well-formed: `blocked` is true
exactly when the reason is one of artist/track/pattern/reverse, and false
exactly when the reason is none. -/
theorem isBlocked_verdict_wellformed (arts : List String) (track : String)
    (bA : List String) (tR : List TrackRule) (pats : List String) (rev collab : Bool) :
    ((isBlocked arts track bA tR pats rev collab).blocked = true ↔
      ((isBlocked arts track bA tR pats rev collab).reason = some .artist ∨
       (isBlocked arts track bA tR pats rev collab).reason = some .track ∨
       (isBlocked arts track bA tR pats rev collab).reason = some .pattern ∨
       (isBlocked arts track bA tR pats rev collab).reason = some .reverse))
    ∧ ((isBlocked arts track bA tR pats rev collab).blocked = false ↔
       (isBlocked arts track bA tR pats rev collab).reason = none) := by
  unfold isBlocked
  split_ifs <;> simp

/-- Closed witness for C9 at a concrete input. -/
theorem isBlocked_verdict_wellformed_witness :
    (isBlocked ["Drake"] "Song" [] [] [] false false).reason = none :=
  (isBlocked_verdict_wellformed ["Drake"] "Song" [] [] [] false false).2.mp rfl

/-- C10: the verdict of `isBlocked` is invariant under permutation of the
observed artists list: every per-artist stage uses any-of semantics. -/
theorem isBlocked_perm_invariant (arts1 arts2 : List String) (h : arts1.Perm arts2)
    (track : String) (bA : List String) (tR : List TrackRule) (pats : List String)
    (rev collab : Bool) :
    isBlocked arts1 track bA tR pats rev collab =
      isBlocked arts2 track bA tR pats rev collab := by
  unfold isBlocked isAnyArtistBlocked isCollaborationBlocked
  rw [any_of_perm h (fun artist => isBlockedArtist artist bA),
    any_of_perm h (fun a => isBlockedTrack a track tR),
    any_of_perm h (fun artistName =>
      (bA.map normalize).any fun blocked => isSubOf blocked.data (normalize artistName).data)]

/-- Closed witness for C10 at a concrete permutation. -/
theorem isBlocked_perm_invariant_witness :
    (List.Perm ["Ed Sheeran", "Taylor Swift"] ["Taylor Swift", "Ed Sheeran"])
    ∧ isBlocked ["Ed Sheeran", "Taylor Swift"] "Love Story" ["taylor swift"] [] [] false false =
        isBlocked ["Taylor Swift", "Ed Sheeran"] "Love Story" ["taylor swift"] [] [] false false :=
  ⟨by decide, isBlocked_perm_invariant _ _ (by decide) _ _ _ _ _ _⟩

/-- C3: `isBlocked` evaluates the rule classes in the fixed priority order
reverse-gate, track, pattern, artist, collaboration with first-match-wins
(it coincides with the reference chain `priorityEval` built from the
independently stated stage conditions), and in particular with
`reverseMode = false` a track that fires both the track stage and the
artist stage gets reason `track`, never `artist`. -/
theorem isBlocked_priority_order :
    (∀ (arts : List String) (track : String) (bA : List String) (tR : List TrackRule)
        (pats : List String) (rev collab : Bool),
        isBlocked arts track bA tR pats rev collab =
          priorityEval arts track bA tR pats rev collab)
    ∧ (∀ (arts : List String) (track : String) (bA : List String) (tR : List TrackRule)
        (pats : List String) (collab : Bool),
        trackStageFires arts track tR = true → artistStageFires arts bA = true →
        (isBlocked arts track bA tR pats false collab).reason = some .track) := by
  refine ⟨isBlocked_eq_priorityEval, ?_⟩
  intro arts track bA tR pats collab h1 _h2
  rw [isBlocked_eq_priorityEval]
  have hrev : revGateFires arts bA false = false := by
    unfold revGateFires
    rw [Bool.false_and]
  simp [priorityEval, hrev, h1]

/-- Closed witness for C3 at a concrete input firing both stages. -/
theorem isBlocked_priority_order_witness :
    (isBlocked ["Taylor Swift"] "Love Story" ["taylor swift"]
        [⟨none, "love story"⟩] [] false false).reason = some .track :=
  isBlocked_priority_order.2 _ _ _ _ _ _ (by decide) (by decide)

/-- C8: `sanitizeBlockedList` maps `normalize` over the entries, drops the
ones that normalize to empty, and deduplicates by normalized value: the
output has no duplicates, contains no empty string, and contains exactly
the nonempty normalized forms of the input entries; every non-array input
yields the empty list. -/
theorem sanitizeBlockedList_spec :
    (∀ l : List String,
      (jsSanitizeBlockedList (.arr (l.map .str))).Nodup
      ∧ (∀ s, s ∈ jsSanitizeBlockedList (.arr (l.map .str)) → s ≠ "")
      ∧ (∀ s, s ∈ jsSanitizeBlockedList (.arr (l.map .str)) ↔
          s ≠ "" ∧ ∃ x ∈ l, normalize x = s))
    ∧ (∀ s, jsSanitizeBlockedList (.str s) = [])
    ∧ (∀ n : Int, jsSanitizeBlockedList (.num n) = [])
    ∧ (∀ b : Bool, jsSanitizeBlockedList (.bool b) = [])
    ∧ jsSanitizeBlockedList .null = []
    ∧ jsSanitizeBlockedList .undefined = []
    ∧ (∀ fs, jsSanitizeBlockedList (.obj fs) = []) := by
  refine ⟨?_, fun _ => rfl, fun _ => rfl, fun _ => rfl, rfl, rfl, fun _ => rfl⟩
  intro l
  refine ⟨nodup_dedupFirstAux _ _, ?_, ?_⟩
  · intro s hs
    have h1 := (mem_dedupFirstAux.mp hs).1
    have h2 := (List.mem_filter.mp h1).2
    simpa using h2
  · intro s
    show s ∈ dedupFirstAux []
        (((l.map JSVal.str).map jsNormalize).filter (fun s => s ≠ "")) ↔ _
    rw [mem_dedupFirstAux]
    simp only [List.map_map, List.mem_filter, List.mem_map, List.not_mem_nil,
      not_false_iff, and_true, Function.comp]
    constructor
    · rintro ⟨⟨x, hx, hxs⟩, hne⟩
      exact ⟨by simpa using hne, x, hx, hxs⟩
    · rintro ⟨hne, x, hx, hxs⟩
      exact ⟨⟨x, hx, hxs⟩, by simpa using hne⟩

/-- Closed witness for C8: case and whitespace variants of one name
collapse into a single entry that is indeed in the output. -/
theorem sanitizeBlockedList_spec_witness :
    "taylor swift" ∈ jsSanitizeBlockedList
        (.arr [.str "Taylor  Swift", .str "taylor swift", .str " "]) :=
  ((sanitizeBlockedList_spec.1 ["Taylor  Swift", "taylor swift", " "]).2.2
      "taylor swift").mpr ⟨by decide, "Taylor  Swift", by decide, by decide⟩

/-- C4: for sanitized rule lists, `isBlockedTrack` matches exactly when some
rule's track equals the observed normalized track and its artist is absent
or equals the observed normalized artist; consequently an absent-artist
rule blocks its track under any performer with reason `track` (mode flags
false), and an artist-specific rule does not block the same title under a
different performer. -/
theorem trackRule_matching_spec :
    (∀ (artist track : String) (rules : List TrackRule), SanitizedTracks rules →
      (isBlockedTrack artist track rules = true ↔
        ∃ r ∈ rules, r.track = normalize track ∧
          (r.artist = none ∨ r.artist = some (normalize artist))))
    ∧ (∀ (arts : List String) (track : String) (bA : List String)
        (rules : List TrackRule) (pats : List String) (collab : Bool),
        (∃ r ∈ rules, r.artist = none ∧ r.track = normalize track) →
        isBlocked arts track bA rules pats false collab = ⟨true, some .track⟩)
    ∧ (∀ (a b track : String), normalize a ≠ normalize b →
        isBlocked [b] track [] [⟨some (normalize a), normalize track⟩] [] false false =
          ⟨false, none⟩) := by
  refine ⟨?_, ?_, ?_⟩
  · intro artist track rules hs
    unfold isBlockedTrack
    by_cases ht : track = ""
    · rw [if_pos ht]
      constructor
      · intro hcontra
        exact absurd hcontra (by simp)
      · rintro ⟨r, hr, h1, _⟩
        subst ht
        exact absurd h1 (fun h0 => (hs r hr).1 h0)
    · rw [if_neg ht, List.any_eq_true]
      constructor
      · rintro ⟨r, hr, hfr⟩
        by_cases htr : r.track = normalize track
        · rw [if_neg (not_not_intro htr)] at hfr
          cases har : r.artist with
          | none => exact ⟨r, hr, htr, Or.inl har⟩
          | some a =>
            rw [har] at hfr
            have hfr' :
                ((if artist = "" then none else some (normalize artist)) == some a) = true :=
              hfr
            by_cases hae : artist = ""
            · rw [if_pos hae] at hfr'
              exact absurd hfr' (by simp)
            · rw [if_neg hae] at hfr'
              have hna : normalize artist = a := by simpa using hfr'
              exact ⟨r, hr, htr, Or.inr (by rw [har, hna])⟩
        · rw [if_pos htr] at hfr
          exact absurd hfr (by simp)
      · rintro ⟨r, hr, htr, hart⟩
        refine ⟨r, hr, ?_⟩
        rw [if_neg (not_not_intro htr)]
        rcases hart with hart | hart
        · rw [hart]
        · have hane : normalize artist ≠ "" := fun hempty =>
            ((hs r hr).2.2 (normalize artist) hart).1 hempty
          have hae : artist ≠ "" := by
            intro h0
            rw [h0] at hane
            exact hane rfl
          rw [hart]
          show ((if artist = "" then none else some (normalize artist)) ==
            some (normalize artist)) = true
          rw [if_neg hae]
          simp
  · intro arts track bA rules pats collab h
    rw [isBlocked_eq_priorityEval]
    have hrev : revGateFires arts bA false = false := by
      unfold revGateFires
      rw [Bool.false_and]
    have htrack : trackStageFires arts track rules = true := by
      unfold trackStageFires
      have hB : (rules.any fun b => b.track == normalize track && b.artist == none) = true := by
        rw [List.any_eq_true]
        obtain ⟨r, hr, hnone, htr⟩ := h
        refine ⟨r, hr, ?_⟩
        rw [htr, hnone]
        simp
      rw [hB, Bool.or_true]
    simp [priorityEval, hrev, htrack]
  · intro a b track hab
    rw [isBlocked_eq_priorityEval]
    have h2 : isBlockedTrack b track [⟨some (normalize a), normalize track⟩] = false := by
      unfold isBlockedTrack
      by_cases ht : track = ""
      · rw [if_pos ht]
      · rw [if_neg ht]
        simp only [List.any_cons, List.any_nil, Bool.or_false]
        rw [if_neg (not_not_intro rfl)]
        show ((if b = "" then none else some (normalize b)) == some (normalize a)) = false
        by_cases hb : b = ""
        · rw [if_pos hb]
          rfl
        · rw [if_neg hb]
          have hba : normalize b ≠ normalize a := fun h => hab h.symm
          simp [hba]
    simp [priorityEval, revGateFires, trackStageFires, patternStageFires,
      artistStageFires, collabStageFires, isAnyArtistBlocked, isBlockedArtist,
      isCollaborationBlocked, h2]

/-- Closed witness for C4: an artist-specific rule fails to block the same
title under a different performer. -/
theorem trackRule_matching_spec_witness :
    isBlocked ["Bob"] "X" [] [⟨some (normalize "Alice"), normalize "X"⟩] [] false false =
      ⟨false, none⟩ :=
  trackRule_matching_spec.2.2 "Alice" "Bob" "X" (by decide)

/-- C5: with `blockCollaborations = true` and `reverseMode = false`, when no
track or pattern rule fires and some blocked entry's normalized form is a
substring of some observed artist's normalized form, the verdict is
`{blocked: true, reason: artist}`; with `reverseMode = true` the collab
check is inert (the verdict coincides with `blockCollaborations = false`);
and the spec's concrete collaboration examples evaluate to reason artist. -/
theorem collaboration_rule_spec :
    (∀ (arts : List String) (track : String) (bA : List String) (tR : List TrackRule)
        (pats : List String),
        trackStageFires arts track tR = false →
        patternStageFires track pats = false →
        (∃ a ∈ arts, ∃ e ∈ bA, (normalize e).data <:+: (normalize a).data) →
        isBlocked arts track bA tR pats false true = ⟨true, some .artist⟩)
    ∧ (∀ (arts : List String) (track : String) (bA : List String) (tR : List TrackRule)
        (pats : List String) (collab : Bool),
        isBlocked arts track bA tR pats true collab =
          isBlocked arts track bA tR pats true false)
    ∧ isBlocked ["Taylor Swift", "Ed Sheeran"] "Anti-Hero" ["taylor swift"] [] [] false true =
        ⟨true, some .artist⟩
    ∧ isBlocked ["Taylor Swift feat. Ed Sheeran"] "Song" ["taylor swift"] [] [] false true =
        ⟨true, some .artist⟩ := by
  refine ⟨?_, ?_, rfl, rfl⟩
  · intro arts track bA tR pats h1 h2 h3
    rw [isBlocked_eq_priorityEval]
    have hrev : revGateFires arts bA false = false := by
      unfold revGateFires
      rw [Bool.false_and]
    have hcollab : isCollaborationBlocked arts bA = true := by
      unfold isCollaborationBlocked
      rw [List.any_eq_true]
      obtain ⟨a, ha, e, he, hsub⟩ := h3
      refine ⟨a, ha, ?_⟩
      rw [List.any_eq_true]
      exact ⟨normalize e, List.mem_map_of_mem _ he, decide_eq_true hsub⟩
    cases hart : artistStageFires arts bA with
    | true => simp [priorityEval, hrev, h1, h2, hart]
    | false =>
      simp [priorityEval, hrev, h1, h2, hart, collabStageFires, hcollab]
  · intro arts track bA tR pats collab
    simp [isBlocked]

/-- Closed witness for C5's general collaboration clause. -/
theorem collaboration_rule_spec_witness :
    isBlocked ["Taylor Swift feat. Ed Sheeran"] "My Song" ["taylor swift"] [] [] false true =
      ⟨true, some .artist⟩ :=
  collaboration_rule_spec.1 _ "My Song" _ [] [] (by decide) (by decide)
    ⟨"Taylor Swift feat. Ed Sheeran", by decide, "taylor swift", by decide, by decide⟩

/-! ### Pattern-matching lemmas (for the glob characterization) -/

theorem filter_no_star {l : List Char} (hx : '*' ∉ l) :
    l.filter (fun c => c ≠ '*') = l :=
  List.filter_eq_self.mpr fun _a ha => decide_eq_true (fun h => hx (h ▸ ha))

theorem filter_star_cons (x : List Char) (hx : '*' ∉ x) :
    ('*' :: x).filter (fun c => c ≠ '*') = x := by
  rw [List.filter_cons, if_neg (by simp)]
  exact filter_no_star hx

theorem filter_star_concat (x : List Char) (hx : '*' ∉ x) :
    (x ++ ['*']).filter (fun c => c ≠ '*') = x := by
  rw [List.filter_append, filter_no_star hx, List.filter_cons, if_neg (by simp)]
  simp

theorem filter_star_both (x : List Char) (hx : '*' ∉ x) :
    ('*' :: (x ++ ['*'])).filter (fun c => c ≠ '*') = x := by
  rw [List.filter_cons, if_neg (by simp)]
  exact filter_star_concat x hx

theorem star_isPrefixOf_cons (l : List Char) : ['*'].isPrefixOf ('*' :: l) = true := by
  simp [List.isPrefixOf]

theorem star_isSuffixOf_concat (l : List Char) : ['*'].isSuffixOf (l ++ ['*']) = true :=
  List.isSuffixOf_iff_suffix.mpr ⟨l, rfl⟩

theorem star_isPrefixOf_false {l : List Char} (hne : l ≠ []) (hx : '*' ∉ l) :
    ['*'].isPrefixOf l = false := by
  cases l with
  | nil => exact absurd rfl hne
  | cons c cs =>
    have hc : ¬('*' = c) := fun h => hx (by rw [h]; exact List.mem_cons_self c cs)
    simp [List.isPrefixOf, hc]

theorem star_isSuffixOf_false {l : List Char} (hx : '*' ∉ l) :
    ['*'].isSuffixOf l = false := by
  cases hss : List.isSuffixOf ['*'] l with
  | false => rfl
  | true =>
    obtain ⟨pre, hpre⟩ := List.isSuffixOf_iff_suffix.mp hss
    have h1 : l.getLast? = some '*' := by
      rw [← hpre]
      exact List.getLast?_concat _
    exact absurd (List.mem_of_mem_getLast? h1) hx

theorem star_isSuffixOf_cons_false {x : List Char} (hne : x ≠ []) (hx : '*' ∉ x) :
    ['*'].isSuffixOf ('*' :: x) = false := by
  cases hss : List.isSuffixOf ['*'] ('*' :: x) with
  | false => rfl
  | true =>
    obtain ⟨pre, hpre⟩ := List.isSuffixOf_iff_suffix.mp hss
    have h1 : ('*' :: x).getLast? = some '*' := by
      rw [← hpre]
      exact List.getLast?_concat _
    rw [cons_getLast?_of_ne_nil hne] at h1
    exact absurd (List.mem_of_mem_getLast? h1) hx

theorem star_isPrefixOf_concat_false {x : List Char} (hne : x ≠ []) (hx : '*' ∉ x) :
    ['*'].isPrefixOf (x ++ ['*']) = false := by
  cases x with
  | nil => exact absurd rfl hne
  | cons c cs =>
    have hc : ¬('*' = c) := fun h => hx (by rw [h]; exact List.mem_cons_self c cs)
    rw [List.cons_append]
    simp [List.isPrefixOf, hc]

/-- C2 counterexample: the claim asserts that pattern `"*live"` matches the
track `"Song Title (Live)"` and that pattern `"live*"` matches
`"Song Title (Live Version)"`; the code rejects both, since the normalized
track `"song title (live)"` ends with a parenthesis rather than `live`, and
`"song title (live version)"` does not start with `live`. -/
theorem matchPattern_examples_counterexample :
    matchPattern "*live" "Song Title (Live)" = false
    ∧ matchPattern "live*" "Song Title (Live Version)" = false := by
  constructor <;> decide

/-- C2 (amended): `matchPattern` is glob matching with at most
leading/trailing `*` on the normalized pattern: `*X*` tests substring, `*X`
tests ends-with, `X*` tests starts-with, a wildcard-free pattern tests
exact equality, and an all-asterisk (empty-core) pattern matches nothing;
`"*live"` matches tracks ending in `live` such as `"Concert Live"` but
matches neither `"Song Title (Live)"` (whose normalized form ends with a
parenthesis) nor `"Song Title (Live Version)"`, while `"live*"` matches
tracks starting with `live` such as `"Live in Paris"` but matches neither
`"Song Title (Live Version)"` nor `"A Live One"`. -/
theorem matchPattern_glob_spec :
    (∀ (p t : String) (x : List Char), (normalize p).data = '*' :: (x ++ ['*']) →
        '*' ∉ x → x ≠ [] →
        (matchPattern p t = true ↔ x <:+: (normalize t).data))
    ∧ (∀ (p t : String) (x : List Char), (normalize p).data = '*' :: x →
        '*' ∉ x → x ≠ [] →
        (matchPattern p t = true ↔ x <:+ (normalize t).data))
    ∧ (∀ (p t : String) (x : List Char), (normalize p).data = x ++ ['*'] →
        '*' ∉ x → x ≠ [] →
        (matchPattern p t = true ↔ x <+: (normalize t).data))
    ∧ (∀ (p t : String), '*' ∉ (normalize p).data → normalize p ≠ "" →
        (matchPattern p t = true ↔ normalize t = normalize p))
    ∧ (∀ (p t : String), (normalize p).data.filter (fun c => c ≠ '*') = [] →
        matchPattern p t = false)
    ∧ matchPattern "*live" "Concert Live" = true
    ∧ matchPattern "*live" "Song Title (Live)" = false
    ∧ matchPattern "*live" "Song Title (Live Version)" = false
    ∧ matchPattern "live*" "Live in Paris" = true
    ∧ matchPattern "live*" "Song Title (Live Version)" = false
    ∧ matchPattern "live*" "A Live One" = false := by
  refine ⟨?_, ?_, ?_, ?_, ?_, by decide, by decide, by decide, by decide, by decide, by decide⟩
  · intro p t x hp hx hxne
    have hp0 : ¬ p = "" := by
      intro h0
      rw [h0] at hp
      exact absurd hp.symm (List.cons_ne_nil _ _)
    by_cases ht0 : t = ""
    · subst ht0
      constructor
      · intro hcontra
        simp only [matchPattern] at hcontra
        rw [if_pos (by simp)] at hcontra
        exact absurd hcontra (by simp)
      · intro hsub
        exact absurd (List.infix_nil.mp hsub) hxne
    · simp only [matchPattern]
      rw [if_neg (by simp [hp0, ht0]), hp, filter_star_both x hx,
        if_neg (fun h => hxne (List.length_eq_zero.mp h)), star_isPrefixOf_cons,
        ← List.cons_append, star_isSuffixOf_concat]
      simp only [Bool.and_self, if_true]
      exact decide_eq_true_iff
  · intro p t x hp hx hxne
    have hp0 : ¬ p = "" := by
      intro h0
      rw [h0] at hp
      exact absurd hp.symm (List.cons_ne_nil _ _)
    by_cases ht0 : t = ""
    · subst ht0
      constructor
      · intro hcontra
        simp only [matchPattern] at hcontra
        rw [if_pos (by simp)] at hcontra
        exact absurd hcontra (by simp)
      · intro hsub
        exact absurd (List.suffix_nil.mp hsub) hxne
    · simp only [matchPattern]
      rw [if_neg (by simp [hp0, ht0]), hp, filter_star_cons x hx,
        if_neg (fun h => hxne (List.length_eq_zero.mp h)), star_isPrefixOf_cons,
        star_isSuffixOf_cons_false hxne hx]
      simp only [Bool.and_false, Bool.false_eq_true, if_false, if_true]
      exact List.isSuffixOf_iff_suffix
  · intro p t x hp hx hxne
    have hp0 : ¬ p = "" := by
      intro h0
      rw [h0] at hp
      have hnil : (normalize "").data = [] := rfl
      rw [hnil] at hp
      exact absurd hp.symm (by simp)
    by_cases ht0 : t = ""
    · subst ht0
      constructor
      · intro hcontra
        simp only [matchPattern] at hcontra
        rw [if_pos (by simp)] at hcontra
        exact absurd hcontra (by simp)
      · intro hsub
        exact absurd (List.prefix_nil.mp hsub) hxne
    · simp only [matchPattern]
      rw [if_neg (by simp [hp0, ht0]), hp, filter_star_concat x hx,
        if_neg (fun h => hxne (List.length_eq_zero.mp h)),
        star_isPrefixOf_concat_false hxne hx, star_isSuffixOf_concat]
      simp only [Bool.false_and, Bool.false_eq_true, if_false, if_true]
      exact List.isPrefixOf_iff_prefix
  · intro p t hp hnp
    have hp0 : ¬ p = "" := by
      intro h0
      exact hnp (by rw [h0]; rfl)
    have hnpd : (normalize p).data ≠ [] := fun h => hnp (str_eq_empty_iff.mpr h)
    by_cases ht0 : t = ""
    · subst ht0
      constructor
      · intro hcontra
        simp only [matchPattern] at hcontra
        rw [if_pos (by simp)] at hcontra
        exact absurd hcontra (by simp)
      · intro heq
        exact absurd heq.symm hnp
    · simp only [matchPattern]
      rw [if_neg (by simp [hp0, ht0]), filter_no_star hp,
        if_neg (fun h => hnpd (List.length_eq_zero.mp h)),
        star_isPrefixOf_false hnpd hp, star_isSuffixOf_false hp]
      simp
  · intro p t hfilter
    simp only [matchPattern]
    split_ifs with h1 h2
    · rfl
    · rfl
    all_goals exact absurd (by rw [hfilter]; rfl) h2

/-- Closed witness for C2's substring clause at a concrete pattern/track. -/
theorem matchPattern_glob_spec_witness :
    matchPattern "*live*" "Banana Live Band" = true :=
  (matchPattern_glob_spec.1 "*live*" "Banana Live Band" ['l', 'i', 'v', 'e']
    (by decide) (by decide) (by decide)).mpr (by decide)

end SongSkip
